import Mathlib

/-!
# Verification of the `build_swbd` coastline compressor

Shallow embedding of `src/main.c` of the `util-build_swbd` repository.

The program has two passes:

1. a *cell accumulator* that reads SWBD shapefiles, filters out vertices
   sitting (almost) exactly on a one-degree cell boundary, splits shapes
   into segments, and spools each cell's segments (as `int32` micro-unit
   pairs) to a temporary per-cell file, and
2. a *segment codec / directory writer* that reads each cell's spool,
   delta-codes and bit-packs every segment of at least two vertices, writes
   the packed buffers to the output file, and backpatches the cell's
   directory entry with the region address, segment count and vertex count.

Pure functions below are translated directly from `main.c`.  The only
pieces not in `src/` are the `nvutility` helpers `bit_pack`/`bit_unpack`,
`int_log2` and `NINT`, and the external decoder; those are modelled from
the spec (each carries a doc comment saying so).  File I/O is modelled by
explicit state: per-cell spools are `Option (List segment)` (`none` = the
file does not exist), the output directory is a function from cell ids to
entries, and the output write cursor is a byte offset.
-/

namespace BuildSwbd

/-! ## Bit-stream primitives

Modelled from the spec (§4.2, §6): the bit-packer writes each field as a
fixed number of bits, most significant bit first, into a buffer whose
untouched bits stay zero; `bit_unpack` is its inverse.  A buffer is
modelled as a `List Bool`. -/

/-- Modelled from the spec: the low `w` bits of a natural number, most
significant first — the bit pattern `bit_pack` appends for one field. -/
def natBits : ℕ → ℕ → List Bool
  | 0, _ => []
  | w + 1, v => natBits w (v / 2) ++ [decide (v % 2 = 1)]

/-- Value of a most-significant-first bit string. -/
def bitsVal (l : List Bool) : ℕ :=
  l.foldl (fun a b => 2 * a + cond b 1 0) 0

/-- Modelled from the spec: `bit_pack` of an `int32` value into a `w`-bit
field appends the value's low `w` two's-complement bits. -/
def packField (w : ℕ) (v : ℤ) : List Bool :=
  natBits w (v % (2 : ℤ) ^ w).toNat

/-- Modelled from the spec: `bit_unpack` of a `w`-bit field reads the next
`w` bits as an unsigned value. -/
def readBits (s : List Bool) (w : ℕ) : ℕ :=
  bitsVal (s.take w)

theorem natBits_length (w : ℕ) : ∀ v, (natBits w v).length = w := by
  induction w with
  | zero => intro v; rfl
  | succ w ih => intro v; simp [natBits, ih]

theorem bitsVal_append_singleton (l : List Bool) (b : Bool) :
    bitsVal (l ++ [b]) = 2 * bitsVal l + cond b 1 0 := by
  simp [bitsVal, List.foldl_append]

theorem bitsVal_natBits (w : ℕ) : ∀ v, bitsVal (natBits w v) = v % 2 ^ w := by
  induction w with
  | zero => intro v; simp [natBits, bitsVal, Nat.mod_one]
  | succ w ih =>
    intro v
    rw [natBits, bitsVal_append_singleton, ih, Nat.pow_succ']
    have hm : v % (2 * 2 ^ w) = v % 2 + 2 * (v / 2 % 2 ^ w) := Nat.mod_mul
    rcases Nat.mod_two_eq_zero_or_one v with h | h <;> (simp [h, hm]; try omega)

theorem packField_length (w : ℕ) (v : ℤ) : (packField w v).length = w :=
  natBits_length w _

theorem take_len_append (l r : List Bool) : (l ++ r).take l.length = l := by
  induction l with
  | nil => simp
  | cons a t ih => simp [ih]

theorem drop_len_append (l r : List Bool) : (l ++ r).drop l.length = r := by
  induction l with
  | nil => simp
  | cons a t ih => simp [ih]

theorem take_packField (w : ℕ) (v : ℤ) (r : List Bool) :
    (packField w v ++ r).take w = packField w v := by
  have h := take_len_append (packField w v) r
  rwa [packField_length] at h

theorem drop_packField (w : ℕ) (v : ℤ) (r : List Bool) :
    (packField w v ++ r).drop w = r := by
  have h := drop_len_append (packField w v) r
  rwa [packField_length] at h

theorem readBits_packField {w : ℕ} {v : ℤ} (r : List Bool)
    (h0 : 0 ≤ v) (h : v < 2 ^ w) :
    readBits (packField w v ++ r) w = v.toNat := by
  rw [readBits, take_packField, packField, bitsVal_natBits,
    Int.emod_eq_of_lt h0 h]
  have hcast : ((2 : ℤ) ^ w) = ((2 ^ w : ℕ) : ℤ) := by push_cast; ring
  rw [hcast] at h
  have hlt : v.toNat < 2 ^ w := by omega
  exact Nat.mod_eq_of_lt hlt

theorem readBits_packFieldNat {w v : ℕ} (r : List Bool) (h : v < 2 ^ w) :
    readBits (packField w (v : ℤ) ++ r) w = v := by
  rw [readBits_packField r (by positivity)
        (by exact_mod_cast h), Int.toNat_natCast]

/-! ## Integer base-2 logarithm

`int_log2` lives in `nvutility`, outside `src/`. -/

/-- Fuel-driven floor base-2 logarithm (the fuel makes it structurally
recursive, so that concrete instances evaluate inside the kernel). -/
def ilog2Aux : ℕ → ℕ → ℕ
  | 0, _ => 0
  | fuel + 1, n => if n < 2 then 0 else ilog2Aux fuel (n / 2) + 1

/-- Modelled from the spec: `int_log2 m = floor(log2 m)` (§4.2 step 4 and
§8 give `width = floor(log2 m) + 1`). -/
def int_log2 (x : ℤ) : ℕ :=
  ilog2Aux x.toNat x.toNat

theorem ilog2Aux_eq_log (fuel : ℕ) :
    ∀ n, n ≤ fuel → ilog2Aux fuel n = Nat.log 2 n := by
  induction fuel with
  | zero =>
    intro n hn
    interval_cases n
    simp [ilog2Aux]
  | succ fuel ih =>
    intro n hn
    by_cases h2 : n < 2
    · interval_cases n <;> simp [ilog2Aux]
    · push_neg at h2
      have hdiv : n / 2 ≤ fuel := by omega
      have hrec := Nat.log_div_base 2 n
      have hpos := Nat.log_pos (b := 2) (by norm_num) h2
      rw [ilog2Aux, if_neg (by omega), ih _ hdiv, hrec]
      omega

theorem int_log2_eq_log (x : ℤ) : int_log2 x = Nat.log 2 x.toNat :=
  ilog2Aux_eq_log _ _ le_rfl

/-! ## Per-segment codec (src/main.c lines 639–746)

A spooled segment is a list of `(lon, lat)` micro-unit pairs
(`segx[k], segy[k]`). -/

/-- Successive deltas `x[k] - x[k-1]`, `k = 1 .. n-1` (lines 664–667). -/
def deltas (l : List ℤ) : List ℤ :=
  List.zipWith (· - ·) l.tail l

/-- `diff_x[0] = MIN(...)` with its initial value `99999999` (lines 641, 664). -/
def foldMin (ds : List ℤ) : ℤ :=
  ds.foldl min 99999999

/-- `diff_x[1] = MAX(...)` with its initial value `-99999999` (lines 642, 665). -/
def foldMax (ds : List ℤ) : ℤ :=
  ds.foldl max (-99999999)

/-- Longitude deltas of a segment. -/
def segDxs (seg : List (ℤ × ℤ)) : List ℤ :=
  deltas (seg.map Prod.fst)

/-- Latitude deltas of a segment. -/
def segDys (seg : List (ℤ × ℤ)) : List ℤ :=
  deltas (seg.map Prod.snd)

/-- `bias_x = -diff_x[0]` (line 672). -/
def biasX (seg : List (ℤ × ℤ)) : ℤ :=
  -foldMin (segDxs seg)

/-- `bias_y = -diff_y[0]` (line 673). -/
def biasY (seg : List (ℤ × ℤ)) : ℤ :=
  -foldMin (segDys seg)

/-- `max_bias = (int32_t)(pow(2.0,17.0) - 1.0) = 131071` (line 576). -/
def max_bias : ℤ := 131071

/-- The fatal-range test applied to each bias (lines 676, 684). -/
def biasOutOfRange (b : ℤ) : Bool :=
  decide (max_bias < b) || decide (b < -max_bias)

/-- `range_x = diff_x[1] - diff_x[0]` (line 692). -/
def rangeX (seg : List (ℤ × ℤ)) : ℤ :=
  foldMax (segDxs seg) - foldMin (segDxs seg)

/-- `range_y = diff_y[1] - diff_y[0]` (line 693). -/
def rangeY (seg : List (ℤ × ℤ)) : ℤ :=
  foldMax (segDys seg) - foldMin (segDys seg)

/-- `if (!range_x) range_x = 1` (line 696). -/
def forcedRangeX (seg : List (ℤ × ℤ)) : ℤ :=
  if rangeX seg = 0 then 1 else rangeX seg

/-- `if (!range_y) range_y = 1` (line 697). -/
def forcedRangeY (seg : List (ℤ × ℤ)) : ℤ :=
  if rangeY seg = 0 then 1 else rangeY seg

/-- `count_bits = int_log2 (segCount) + 1` (line 702). -/
def countBits (seg : List (ℤ × ℤ)) : ℕ :=
  int_log2 (seg.length : ℤ) + 1

/-- `lon_offset_bits = int_log2 (range_x) + 1` (line 703). -/
def lonOffsetBits (seg : List (ℤ × ℤ)) : ℕ :=
  int_log2 (forcedRangeX seg) + 1

/-- `lat_offset_bits = int_log2 (range_y) + 1` (line 704). -/
def latOffsetBits (seg : List (ℤ × ℤ)) : ℕ :=
  int_log2 (forcedRangeY seg) + 1

/-- The offset loop of lines 739–746: for each vertex after the first,
pack `(x[k]-x[k-1]) + bias_x` in `lob` bits then `(y[k]-y[k-1]) + bias_y`
in `lab` bits. -/
def packOffsets (lob lab : ℕ) (bx bY : ℤ) : (ℤ × ℤ) → List (ℤ × ℤ) → List Bool
  | _, [] => []
  | p, q :: rest =>
    packField lob (q.1 - p.1 + bx) ++ packField lab (q.2 - p.2 + bY) ++
      packOffsets lob lab bx bY q rest

/-- The bit-packing of one segment (lines 728–746): three 5-bit width
fields, the vertex count, the two biased biases in 18 bits each, the
26/25-bit start coordinates, then the interleaved offsets. -/
def packSegment (seg : List (ℤ × ℤ)) : List Bool :=
  match seg with
  | [] => []
  | p0 :: rest =>
    packField 5 (countBits seg : ℤ) ++
    packField 5 (lonOffsetBits seg : ℤ) ++
    packField 5 (latOffsetBits seg : ℤ) ++
    packField (countBits seg) (seg.length : ℤ) ++
    packField 18 (biasX seg + max_bias) ++
    packField 18 (biasY seg + max_bias) ++
    packField 26 p0.1 ++
    packField 25 p0.2 ++
    packOffsets (lonOffsetBits seg) (latOffsetBits seg) (biasX seg) (biasY seg) p0 rest

/-- The per-segment encoder including the fatal bias-range checks of
lines 676–689 (`exit(-1)` becomes `Except.error`). -/
def encodeSegment (seg : List (ℤ × ℤ)) : Except String (List Bool) :=
  if biasOutOfRange (biasX seg) then Except.error "lon bias out of range, terminating!"
  else if biasOutOfRange (biasY seg) then Except.error "lat bias out of range, terminating!"
  else Except.ok (packSegment seg)

/-- The bit total of the fields actually packed (the widths summed over
lines 728–746). -/
def totalBits (seg : List (ℤ × ℤ)) : ℕ :=
  5 + 5 + 5 + countBits seg + 18 + 18 + 26 + 25 +
    (seg.length - 1) * (lonOffsetBits seg + latOffsetBits seg)

/-- The byte-size computation of lines 709–712: note the sum includes one
extra `lon_offset_bits + lat_offset_bits` term, and the division is
`size / 8 + 1`, not a ceiling. -/
def codeSize (seg : List (ℤ × ℤ)) : ℕ :=
  (5 + 5 + 5 + countBits seg + lonOffsetBits seg + latOffsetBits seg +
    18 + 18 + 26 + 25 +
    (seg.length - 1) * (lonOffsetBits seg + latOffsetBits seg)) / 8 + 1

/-- The `calloc`ed write buffer (line 717) after `bit_pack`ing: the packed
bits followed by untouched (hence zero) padding up to `size` bytes. -/
def bufferBits (seg : List (ℤ × ℤ)) : List Bool :=
  packSegment seg ++ List.replicate (8 * codeSize seg - (packSegment seg).length) false

/-! ## The decoder, modelled from the spec

The reader of the produced format (`read_coast`) is outside this
repository; the spec (§4.2 bit layout, §8 round trip) fixes its contract:
read the fields back in the same order and widths, and rebuild each vertex
from the previous one as `previous + (offset - bias)`. -/

/-- Modelled from the spec: decode `n` further vertices, each from a
`lob`-bit lon offset and a `lab`-bit lat offset relative to the previous
vertex. -/
def unpackPoints (lob lab : ℕ) (bx bY : ℤ) : ℕ → (ℤ × ℤ) → List Bool → List (ℤ × ℤ)
  | 0, _, _ => []
  | k + 1, p, s =>
    let nx := p.1 + ((readBits s lob : ℤ) - bx)
    let s1 := s.drop lob
    let ny := p.2 + ((readBits s1 lab : ℤ) - bY)
    let s2 := s1.drop lab
    (nx, ny) :: unpackPoints lob lab bx bY k (nx, ny) s2

/-- Modelled from the spec: the inverse of `packSegment` — read the three
5-bit widths, the count, the two 18-bit biased biases, the 26/25-bit start
vertex, then the offset pairs. -/
def unpackSegment (s0 : List Bool) : List (ℤ × ℤ) :=
  let cb := readBits s0 5
  let s1 := s0.drop 5
  let lob := readBits s1 5
  let s2 := s1.drop 5
  let lab := readBits s2 5
  let s3 := s2.drop 5
  let n := readBits s3 cb
  let s4 := s3.drop cb
  let bx := (readBits s4 18 : ℤ) - max_bias
  let s5 := s4.drop 18
  let bY := (readBits s5 18 : ℤ) - max_bias
  let s6 := s5.drop 18
  let x0 := (readBits s6 26 : ℤ)
  let s7 := s6.drop 26
  let y0 := (readBits s7 25 : ℤ)
  let s8 := s7.drop 25
  (x0, y0) :: unpackPoints lob lab bx bY (n - 1) (x0, y0) s8

/-- The 18-bit biased longitude field as stored in a packed buffer:
skip the three 5-bit width fields and the `cb`-bit count, read 18 bits. -/
def lonBiasField (s : List Bool) : ℕ :=
  readBits ((((s.drop 5).drop 5).drop 5).drop (readBits s 5)) 18

/-- The 18-bit biased latitude field as stored in a packed buffer. -/
def latBiasField (s : List Bool) : ℕ :=
  readBits (((((s.drop 5).drop 5).drop 5).drop (readBits s 5)).drop 18) 18

/-! ## Order helpers for the fold-based minima and maxima -/

theorem foldl_min_le_init (l : List ℤ) : ∀ a : ℤ, l.foldl min a ≤ a := by
  induction l with
  | nil => intro a; simp
  | cons b t ih =>
    intro a
    calc (b :: t).foldl min a = t.foldl min (min a b) := rfl
    _ ≤ min a b := ih _
    _ ≤ a := min_le_left _ _

theorem foldl_min_le_mem (l : List ℤ) :
    ∀ (a x : ℤ), x ∈ l → l.foldl min a ≤ x := by
  induction l with
  | nil => intro a x hx; cases hx
  | cons b t ih =>
    intro a x hx
    rcases List.mem_cons.mp hx with rfl | hx
    · calc (x :: t).foldl min a = t.foldl min (min a x) := rfl
      _ ≤ min a x := foldl_min_le_init _ _
      _ ≤ x := min_le_right _ _
    · exact ih _ x hx

theorem init_le_foldl_max (l : List ℤ) : ∀ a : ℤ, a ≤ l.foldl max a := by
  induction l with
  | nil => intro a; simp
  | cons b t ih =>
    intro a
    calc a ≤ max a b := le_max_left _ _
    _ ≤ t.foldl max (max a b) := ih _
    _ = (b :: t).foldl max a := rfl

theorem mem_le_foldl_max (l : List ℤ) :
    ∀ (a x : ℤ), x ∈ l → x ≤ l.foldl max a := by
  induction l with
  | nil => intro a x hx; cases hx
  | cons b t ih =>
    intro a x hx
    rcases List.mem_cons.mp hx with rfl | hx
    · calc x ≤ max a x := le_max_right _ _
      _ ≤ t.foldl max (max a x) := init_le_foldl_max _ _
      _ = (x :: t).foldl max a := rfl
    · exact ih _ x hx

theorem foldl_min_ge (l : List ℤ) :
    ∀ (a m : ℤ), m ≤ a → (∀ x ∈ l, m ≤ x) → m ≤ l.foldl min a := by
  induction l with
  | nil => intro a m ha _; simpa using ha
  | cons b t ih =>
    intro a m ha hl
    exact ih _ m (le_min ha (hl b (List.mem_cons_self _ _)))
      (fun x hx => hl x (List.mem_cons_of_mem _ hx))

theorem foldl_max_le (l : List ℤ) :
    ∀ (a m : ℤ), a ≤ m → (∀ x ∈ l, x ≤ m) → l.foldl max a ≤ m := by
  induction l with
  | nil => intro a m ha _; simpa using ha
  | cons b t ih =>
    intro a m ha hl
    exact ih _ m (max_le ha (hl b (List.mem_cons_self _ _)))
      (fun x hx => hl x (List.mem_cons_of_mem _ hx))

theorem deltas_nil : deltas [] = [] := rfl

theorem deltas_singleton (a : ℤ) : deltas [a] = [] := rfl

theorem deltas_cons_cons (a b : ℤ) (t : List ℤ) :
    deltas (a :: b :: t) = (b - a) :: deltas (b :: t) := rfl

theorem deltas_mem_bound (lo hi : ℤ) :
    ∀ (l : List ℤ), (∀ x ∈ l, lo ≤ x ∧ x ≤ hi) →
      ∀ d ∈ deltas l, lo - hi ≤ d ∧ d ≤ hi - lo := by
  intro l
  induction l with
  | nil => intro _ d hd; simp [deltas_nil] at hd
  | cons a t ih =>
    intro hl d hd
    cases t with
    | nil => simp [deltas_singleton] at hd
    | cons b t2 =>
      rw [deltas_cons_cons] at hd
      rcases List.mem_cons.mp hd with rfl | hd
      · have ha := hl a (List.mem_cons_self _ _)
        have hb := hl b (List.mem_cons_of_mem _ (List.mem_cons_self _ _))
        constructor <;> omega
      · exact ih (fun x hx => hl x (List.mem_cons_of_mem _ hx)) d hd

theorem segDxs_cons (p q : ℤ × ℤ) (rest : List (ℤ × ℤ)) :
    segDxs (p :: q :: rest) = (q.1 - p.1) :: segDxs (q :: rest) := by
  simp [segDxs, deltas_cons_cons]

theorem segDys_cons (p q : ℤ × ℤ) (rest : List (ℤ × ℤ)) :
    segDys (p :: q :: rest) = (q.2 - p.2) :: segDys (q :: rest) := by
  simp [segDys, deltas_cons_cons]

/-! ## Round trip of one segment -/

/-- Every offset of the walk from `p` through `rest` fits its field:
non-negative and below the field's capacity. -/
def offsetsOk (lob lab : ℕ) (bx bY : ℤ) : (ℤ × ℤ) → List (ℤ × ℤ) → Prop
  | _, [] => True
  | p, q :: rest =>
    (0 ≤ q.1 - p.1 + bx ∧ q.1 - p.1 + bx < 2 ^ lob ∧
      0 ≤ q.2 - p.2 + bY ∧ q.2 - p.2 + bY < 2 ^ lab) ∧
    offsetsOk lob lab bx bY q rest

theorem offsetsOk_of_forall (lob lab : ℕ) (bx bY : ℤ) :
    ∀ (rest : List (ℤ × ℤ)) (p : ℤ × ℤ),
      (∀ dx ∈ segDxs (p :: rest), 0 ≤ dx + bx ∧ dx + bx < 2 ^ lob) →
      (∀ dy ∈ segDys (p :: rest), 0 ≤ dy + bY ∧ dy + bY < 2 ^ lab) →
      offsetsOk lob lab bx bY p rest := by
  intro rest
  induction rest with
  | nil => intro p _ _; trivial
  | cons q rest ih =>
    intro p hx hy
    refine ⟨?_, ih q ?_ ?_⟩
    · have h1 := hx (q.1 - p.1) (by rw [segDxs_cons]; exact List.mem_cons_self _ _)
      have h2 := hy (q.2 - p.2) (by rw [segDys_cons]; exact List.mem_cons_self _ _)
      exact ⟨h1.1, h1.2, h2.1, h2.2⟩
    · intro dx hdx
      exact hx dx (by rw [segDxs_cons]; exact List.mem_cons_of_mem _ hdx)
    · intro dy hdy
      exact hy dy (by rw [segDys_cons]; exact List.mem_cons_of_mem _ hdy)

theorem unpackPoints_packOffsets (lob lab : ℕ) (bx bY : ℤ) :
    ∀ (rest : List (ℤ × ℤ)) (p : ℤ × ℤ) (r : List Bool),
      offsetsOk lob lab bx bY p rest →
      unpackPoints lob lab bx bY rest.length p
        (packOffsets lob lab bx bY p rest ++ r) = rest := by
  intro rest
  induction rest with
  | nil => intro p r _; rfl
  | cons q rest ih =>
    intro p r hok
    obtain ⟨⟨hx0, hx1, hy0, hy1⟩, hrest⟩ := hok
    show unpackPoints lob lab bx bY (rest.length + 1) p _ = q :: rest
    rw [packOffsets, List.append_assoc, List.append_assoc, unpackPoints]
    rw [readBits_packField _ hx0 hx1, drop_packField,
      readBits_packField _ hy0 hy1, drop_packField,
      Int.toNat_of_nonneg hx0, Int.toNat_of_nonneg hy0]
    have e1 : p.1 + (q.1 - p.1 + bx - bx) = q.1 := by ring
    have e2 : p.2 + (q.2 - p.2 + bY - bY) = q.2 := by ring
    rw [e1, e2]
    exact congrArg (q :: ·) (ih q r hrest)

theorem countBits_eq (seg : List (ℤ × ℤ)) :
    countBits seg = Nat.log 2 seg.length + 1 := by
  simp [countBits, int_log2_eq_log]

theorem lonOffsetBits_eq (seg : List (ℤ × ℤ)) :
    lonOffsetBits seg = Nat.log 2 (forcedRangeX seg).toNat + 1 := by
  simp [lonOffsetBits, int_log2_eq_log]

theorem latOffsetBits_eq (seg : List (ℤ × ℤ)) :
    latOffsetBits seg = Nat.log 2 (forcedRangeY seg).toNat + 1 := by
  simp [latOffsetBits, int_log2_eq_log]

theorem biasOutOfRange_false_iff (b : ℤ) :
    biasOutOfRange b = false ↔ -max_bias ≤ b ∧ b ≤ max_bias := by
  simp [biasOutOfRange, max_bias]
  omega

theorem foldMin_le_mem {l : List ℤ} {x : ℤ} (hx : x ∈ l) : foldMin l ≤ x :=
  foldl_min_le_mem l _ x hx

theorem mem_le_foldMax {l : List ℤ} {x : ℤ} (hx : x ∈ l) : x ≤ foldMax l :=
  mem_le_foldl_max l _ x hx

theorem foldMin_ge {l : List ℤ} {m : ℤ} (hm : m ≤ 99999999)
    (hl : ∀ x ∈ l, m ≤ x) : m ≤ foldMin l :=
  foldl_min_ge l _ m hm hl

theorem foldMax_le {l : List ℤ} {m : ℤ} (hm : -99999999 ≤ m)
    (hl : ∀ x ∈ l, x ≤ m) : foldMax l ≤ m :=
  foldl_max_le l _ m hm hl

theorem range_nonneg (p0 p1 : ℤ × ℤ) (rest : List (ℤ × ℤ)) :
    0 ≤ rangeX (p0 :: p1 :: rest) ∧ 0 ≤ rangeY (p0 :: p1 :: rest) := by
  have hdx : p1.1 - p0.1 ∈ segDxs (p0 :: p1 :: rest) := by
    rw [segDxs_cons]; exact List.mem_cons_self _ _
  have hdy : p1.2 - p0.2 ∈ segDys (p0 :: p1 :: rest) := by
    rw [segDys_cons]; exact List.mem_cons_self _ _
  have h1 := foldMin_le_mem hdx
  have h2 := mem_le_foldMax hdx
  have h3 := foldMin_le_mem hdy
  have h4 := mem_le_foldMax hdy
  unfold rangeX rangeY
  omega

theorem forcedRange_bounds (seg : List (ℤ × ℤ)) (h0 : 0 ≤ rangeX seg)
    (h0' : 0 ≤ rangeY seg) :
    (1 ≤ forcedRangeX seg ∧ rangeX seg ≤ forcedRangeX seg ∧
      forcedRangeX seg ≤ max 1 (rangeX seg)) ∧
    (1 ≤ forcedRangeY seg ∧ rangeY seg ≤ forcedRangeY seg ∧
      forcedRangeY seg ≤ max 1 (rangeY seg)) := by
  unfold forcedRangeX forcedRangeY
  constructor <;> (split <;> (simp_all; try omega))

theorem segDxs_bounds (seg : List (ℤ × ℤ))
    (hx : ∀ p ∈ seg, 0 ≤ p.1 ∧ p.1 ≤ 35999999) :
    ∀ d ∈ segDxs seg, -35999999 ≤ d ∧ d ≤ 35999999 := by
  have h := deltas_mem_bound 0 35999999 (seg.map Prod.fst) ?_
  · intro d hd
    have := h d hd
    omega
  · intro x hxm
    obtain ⟨p, hp, rfl⟩ := List.mem_map.mp hxm
    exact hx p hp

theorem segDys_bounds (seg : List (ℤ × ℤ))
    (hy : ∀ p ∈ seg, 0 ≤ p.2 ∧ p.2 ≤ 17999999) :
    ∀ d ∈ segDys seg, -17999999 ≤ d ∧ d ≤ 17999999 := by
  have h := deltas_mem_bound 0 17999999 (seg.map Prod.snd) ?_
  · intro d hd
    have := h d hd
    omega
  · intro y hym
    obtain ⟨p, hp, rfl⟩ := List.mem_map.mp hym
    exact hy p hp

theorem rangeX_le (seg : List (ℤ × ℤ))
    (hx : ∀ p ∈ seg, 0 ≤ p.1 ∧ p.1 ≤ 35999999) :
    rangeX seg ≤ 71999998 := by
  have hd := segDxs_bounds seg hx
  have h1 : foldMax (segDxs seg) ≤ 35999999 :=
    foldMax_le (by norm_num) (fun d hdm => (hd d hdm).2)
  have h2 : -35999999 ≤ foldMin (segDxs seg) :=
    foldMin_ge (by norm_num) (fun d hdm => (hd d hdm).1)
  unfold rangeX
  omega

theorem rangeY_le (seg : List (ℤ × ℤ))
    (hy : ∀ p ∈ seg, 0 ≤ p.2 ∧ p.2 ≤ 17999999) :
    rangeY seg ≤ 35999998 := by
  have hd := segDys_bounds seg hy
  have h1 : foldMax (segDys seg) ≤ 17999999 :=
    foldMax_le (by norm_num) (fun d hdm => (hd d hdm).2)
  have h2 : -17999999 ≤ foldMin (segDys seg) :=
    foldMin_ge (by norm_num) (fun d hdm => (hd d hdm).1)
  unfold rangeY
  omega

theorem offsetBits_fit (seg : List (ℤ × ℤ)) (hf1 : 1 ≤ forcedRangeX seg)
    (hf1' : 1 ≤ forcedRangeY seg) :
    forcedRangeX seg < 2 ^ lonOffsetBits seg ∧
      forcedRangeY seg < 2 ^ latOffsetBits seg := by
  constructor
  · rw [lonOffsetBits_eq]
    have h := Nat.lt_pow_succ_log_self (by norm_num : 1 < 2) (forcedRangeX seg).toNat
    have h2 : forcedRangeX seg = ((forcedRangeX seg).toNat : ℤ) :=
      (Int.toNat_of_nonneg (by omega)).symm
    rw [h2]
    exact_mod_cast h
  · rw [latOffsetBits_eq]
    have h := Nat.lt_pow_succ_log_self (by norm_num : 1 < 2) (forcedRangeY seg).toNat
    have h2 : forcedRangeY seg = ((forcedRangeY seg).toNat : ℤ) :=
      (Int.toNat_of_nonneg (by omega)).symm
    rw [h2]
    exact_mod_cast h

/-- C1: for every segment of `n ≥ 2` vertices with coordinates in
micro-units (lon in `[0, 35999999]`, lat in `[0, 17999999]`, count an
`int32`), whose delta biases pass the encoder's range checks, packing the
segment with the encoder's bit schema and unpacking with the inverse
schema yields the vertex list exactly. -/
theorem pack_unpack_roundtrip (seg : List (ℤ × ℤ))
    (h2 : 2 ≤ seg.length) (hn : seg.length < 2 ^ 31)
    (hx : ∀ p ∈ seg, 0 ≤ p.1 ∧ p.1 ≤ 35999999)
    (hy : ∀ p ∈ seg, 0 ≤ p.2 ∧ p.2 ≤ 17999999)
    (hbx : biasOutOfRange (biasX seg) = false)
    (hby : biasOutOfRange (biasY seg) = false) :
    unpackSegment (packSegment seg) = seg := by
  obtain ⟨p0, p1, rest, rfl⟩ : ∃ p0 p1 rest, seg = p0 :: p1 :: rest := by
    match seg, h2 with
    | p0 :: p1 :: rest, _ => exact ⟨p0, p1, rest, rfl⟩
  have hcb5 : countBits (p0 :: p1 :: rest) < 2 ^ 5 := by
    rw [countBits_eq]
    have hlog := Nat.log_lt_of_lt_pow (by simp : (p0 :: p1 :: rest).length ≠ 0) hn
    have h32 : (2:ℕ) ^ 5 = 32 := by norm_num
    omega
  have hr0 := range_nonneg p0 p1 rest
  have hfb := forcedRange_bounds _ hr0.1 hr0.2
  have hrxle := rangeX_le _ hx
  have hryle := rangeY_le _ hy
  have hfit := offsetBits_fit _ hfb.1.1 hfb.2.1
  have hlob5 : lonOffsetBits (p0 :: p1 :: rest) < 2 ^ 5 := by
    rw [lonOffsetBits_eq]
    have h1 : (forcedRangeX (p0 :: p1 :: rest)).toNat ≠ 0 := by
      have := hfb.1.1; omega
    have h2 : (forcedRangeX (p0 :: p1 :: rest)).toNat < 2 ^ 27 := by
      have := hfb.1.1
      have h3 := hfb.1.2.2
      have h4 : (2:ℕ) ^ 27 = 134217728 := by norm_num
      have h5 : forcedRangeX (p0 :: p1 :: rest) ≤ 71999998 := by
        rcases max_le_iff.mp (le_refl (max 1 (rangeX (p0 :: p1 :: rest)))) with ⟨hA, hB⟩
        omega
      omega
    have hlog := Nat.log_lt_of_lt_pow h1 h2
    have h32 : (2:ℕ) ^ 5 = 32 := by norm_num
    omega
  have hlab5 : latOffsetBits (p0 :: p1 :: rest) < 2 ^ 5 := by
    rw [latOffsetBits_eq]
    have h1 : (forcedRangeY (p0 :: p1 :: rest)).toNat ≠ 0 := by
      have := hfb.2.1; omega
    have h2 : (forcedRangeY (p0 :: p1 :: rest)).toNat < 2 ^ 27 := by
      have := hfb.2.1
      have h3 := hfb.2.2.2
      have h4 : (2:ℕ) ^ 27 = 134217728 := by norm_num
      have h5 : forcedRangeY (p0 :: p1 :: rest) ≤ 35999998 := by
        rcases max_le_iff.mp (le_refl (max 1 (rangeY (p0 :: p1 :: rest)))) with ⟨hA, hB⟩
        omega
      omega
    have hlog := Nat.log_lt_of_lt_pow h1 h2
    have h32 : (2:ℕ) ^ 5 = 32 := by norm_num
    omega
  have hnlt : (p0 :: p1 :: rest).length < 2 ^ countBits (p0 :: p1 :: rest) := by
    rw [countBits_eq]
    exact Nat.lt_pow_succ_log_self (by norm_num) _
  have hbxr := (biasOutOfRange_false_iff _).mp hbx
  have hbyr := (biasOutOfRange_false_iff _).mp hby
  have hmb : max_bias = 131071 := rfl
  have h218 : (2:ℤ) ^ 18 = 262144 := by norm_num
  have hbx0 : 0 ≤ biasX (p0 :: p1 :: rest) + max_bias := by omega
  have hbx18 : biasX (p0 :: p1 :: rest) + max_bias < 2 ^ 18 := by omega
  have hby0 : 0 ≤ biasY (p0 :: p1 :: rest) + max_bias := by omega
  have hby18 : biasY (p0 :: p1 :: rest) + max_bias < 2 ^ 18 := by omega
  have hp0x := hx p0 (List.mem_cons_self _ _)
  have hp0y := hy p0 (List.mem_cons_self _ _)
  have h226 : (2:ℤ) ^ 26 = 67108864 := by norm_num
  have h225 : (2:ℤ) ^ 25 = 33554432 := by norm_num
  have hx0lt : p0.1 < 2 ^ 26 := by omega
  have hy0lt : p0.2 < 2 ^ 25 := by omega
  have hoffx : ∀ dx ∈ segDxs (p0 :: p1 :: rest),
      0 ≤ dx + biasX (p0 :: p1 :: rest) ∧
        dx + biasX (p0 :: p1 :: rest) < 2 ^ lonOffsetBits (p0 :: p1 :: rest) := by
    intro dx hdx
    have h1 := foldMin_le_mem hdx
    have h2 := mem_le_foldMax hdx
    have hb : biasX (p0 :: p1 :: rest) = -foldMin (segDxs (p0 :: p1 :: rest)) := rfl
    have hrr : rangeX (p0 :: p1 :: rest) =
        foldMax (segDxs (p0 :: p1 :: rest)) - foldMin (segDxs (p0 :: p1 :: rest)) := rfl
    have h3 := hfb.1.2.1
    have h4 := hfit.1
    omega
  have hoffy : ∀ dy ∈ segDys (p0 :: p1 :: rest),
      0 ≤ dy + biasY (p0 :: p1 :: rest) ∧
        dy + biasY (p0 :: p1 :: rest) < 2 ^ latOffsetBits (p0 :: p1 :: rest) := by
    intro dy hdy
    have h1 := foldMin_le_mem hdy
    have h2 := mem_le_foldMax hdy
    have hb : biasY (p0 :: p1 :: rest) = -foldMin (segDys (p0 :: p1 :: rest)) := rfl
    have hrr : rangeY (p0 :: p1 :: rest) =
        foldMax (segDys (p0 :: p1 :: rest)) - foldMin (segDys (p0 :: p1 :: rest)) := rfl
    have h3 := hfb.2.2.1
    have h4 := hfit.2
    omega
  have hok := offsetsOk_of_forall (lonOffsetBits (p0 :: p1 :: rest))
    (latOffsetBits (p0 :: p1 :: rest)) (biasX (p0 :: p1 :: rest))
    (biasY (p0 :: p1 :: rest)) (p1 :: rest) p0 hoffx hoffy
  simp only [unpackSegment, packSegment, List.append_assoc]
  rw [readBits_packFieldNat _ hcb5, drop_packField,
    readBits_packFieldNat _ hlob5, drop_packField,
    readBits_packFieldNat _ hlab5, drop_packField,
    readBits_packFieldNat _ hnlt, drop_packField,
    readBits_packField _ hbx0 hbx18, drop_packField,
    readBits_packField _ hby0 hby18, drop_packField,
    readBits_packField _ hp0x.1 hx0lt, drop_packField,
    readBits_packField _ hp0y.1 hy0lt, drop_packField,
    Int.toNat_of_nonneg hbx0, Int.toNat_of_nonneg hby0,
    Int.toNat_of_nonneg hp0x.1, Int.toNat_of_nonneg hp0y.1,
    add_sub_cancel_right, add_sub_cancel_right]
  have hlen : (p0 :: p1 :: rest).length - 1 = (p1 :: rest).length := by simp
  rw [hlen, Prod.mk.eta,
    ← List.append_nil (packOffsets (lonOffsetBits (p0 :: p1 :: rest))
      (latOffsetBits (p0 :: p1 :: rest)) (biasX (p0 :: p1 :: rest))
      (biasY (p0 :: p1 :: rest)) p0 (p1 :: rest)),
    unpackPoints_packOffsets _ _ _ _ (p1 :: rest) p0 [] hok]

/-- Witness for C1: the spec's §8 end-to-end segment `[(0,0), (1,1),
(50000,50000)]` round-trips exactly. -/
theorem pack_unpack_roundtrip_witness :
    2 ≤ ([((0:ℤ), (0:ℤ)), (1, 1), (50000, 50000)] : List (ℤ × ℤ)).length ∧
      unpackSegment (packSegment [((0:ℤ), (0:ℤ)), (1, 1), (50000, 50000)]) =
        [((0:ℤ), (0:ℤ)), (1, 1), (50000, 50000)] :=
  ⟨by decide, pack_unpack_roundtrip _ (by decide) (by decide) (by decide)
    (by decide) (by decide) (by decide)⟩

/-! ## Stored bias fields (claim C2) -/

theorem bias_field_eval (seg : List (ℤ × ℤ)) (h2 : 2 ≤ seg.length)
    (hn : seg.length < 2 ^ 31)
    (hbx : biasOutOfRange (biasX seg) = false)
    (hby : biasOutOfRange (biasY seg) = false) :
    (lonBiasField (packSegment seg) : ℤ) = biasX seg + max_bias ∧
      (latBiasField (packSegment seg) : ℤ) = biasY seg + max_bias := by
  obtain ⟨p0, p1, rest, rfl⟩ : ∃ p0 p1 rest, seg = p0 :: p1 :: rest := by
    match seg, h2 with
    | p0 :: p1 :: rest, _ => exact ⟨p0, p1, rest, rfl⟩
  have hcb5 : countBits (p0 :: p1 :: rest) < 2 ^ 5 := by
    rw [countBits_eq]
    have hlog := Nat.log_lt_of_lt_pow (by simp : (p0 :: p1 :: rest).length ≠ 0) hn
    have h32 : (2:ℕ) ^ 5 = 32 := by norm_num
    omega
  have hbxr := (biasOutOfRange_false_iff _).mp hbx
  have hbyr := (biasOutOfRange_false_iff _).mp hby
  have hmb : max_bias = 131071 := rfl
  have h218 : (2:ℤ) ^ 18 = 262144 := by norm_num
  have hbx0 : 0 ≤ biasX (p0 :: p1 :: rest) + max_bias := by omega
  have hbx18 : biasX (p0 :: p1 :: rest) + max_bias < 2 ^ 18 := by omega
  have hby0 : 0 ≤ biasY (p0 :: p1 :: rest) + max_bias := by omega
  have hby18 : biasY (p0 :: p1 :: rest) + max_bias < 2 ^ 18 := by omega
  constructor
  · simp only [lonBiasField, packSegment, List.append_assoc]
    rw [readBits_packFieldNat _ hcb5, drop_packField, drop_packField,
      drop_packField, drop_packField, readBits_packField _ hbx0 hbx18,
      Int.toNat_of_nonneg hbx0]
  · simp only [latBiasField, packSegment, List.append_assoc]
    rw [readBits_packFieldNat _ hcb5, drop_packField, drop_packField,
      drop_packField, drop_packField, drop_packField,
      readBits_packField _ hby0 hby18, Int.toNat_of_nonneg hby0]

/-- C2 counterexample: for the segment `[(0,0), (1,0)]` the stored 18-bit
longitude field is `biasX + 2^17 - 1 = 131070`, not `biasX + 2^17` as the
claim states. -/
theorem bias_field_counterexample :
    ¬ ((lonBiasField (packSegment [((0:ℤ), (0:ℤ)), (1, 0)]) : ℤ) =
        biasX [((0:ℤ), (0:ℤ)), (1, 0)] + 2 ^ 17) := by decide

/-- C2 (amended): the stored 18-bit longitude field equals
`biasX + (2^17 - 1)` and the latitude field equals `biasY + (2^17 - 1)`
(the code adds `max_bias = 2^17 - 1`, not `2^17`). -/
theorem bias_fields_stored (seg : List (ℤ × ℤ)) (h2 : 2 ≤ seg.length)
    (hn : seg.length < 2 ^ 31)
    (hbx : biasOutOfRange (biasX seg) = false)
    (hby : biasOutOfRange (biasY seg) = false) :
    (lonBiasField (packSegment seg) : ℤ) = biasX seg + (2 ^ 17 - 1) ∧
      (latBiasField (packSegment seg) : ℤ) = biasY seg + (2 ^ 17 - 1) := by
  have h := bias_field_eval seg h2 hn hbx hby
  have hmb : max_bias = (2:ℤ) ^ 17 - 1 := by norm_num [max_bias]
  rw [hmb] at h
  exact h

/-- Witness for C2 (amended): concrete fields of `[(0,0), (1,0)]`. -/
theorem bias_fields_stored_witness :
    biasOutOfRange (biasX [((0:ℤ), (0:ℤ)), (1, 0)]) = false ∧
      ((lonBiasField (packSegment [((0:ℤ), (0:ℤ)), (1, 0)]) : ℤ) =
          biasX [((0:ℤ), (0:ℤ)), (1, 0)] + (2 ^ 17 - 1) ∧
        (latBiasField (packSegment [((0:ℤ), (0:ℤ)), (1, 0)]) : ℤ) =
          biasY [((0:ℤ), (0:ℤ)), (1, 0)] + (2 ^ 17 - 1)) :=
  ⟨by decide, bias_fields_stored _ (by decide) (by decide) (by decide) (by decide)⟩

/-! ## The fatal bias-range check (claim C3) -/

theorem biasOutOfRange_true_iff (b : ℤ) :
    biasOutOfRange b = true ↔ (2:ℤ) ^ 17 - 1 < |b| := by
  have h17 : (2:ℤ) ^ 17 = 131072 := by norm_num
  rw [lt_abs]
  simp only [biasOutOfRange, max_bias, Bool.or_eq_true, decide_eq_true_eq]
  omega

/-- C3: a segment makes the run abort with the fatal "bias out of range"
condition exactly when `|biasX| > 2^17 - 1` or `|biasY| > 2^17 - 1`; a
bias of magnitude exactly `2^17 - 1` is packed, while magnitude `2^17`
is fatal. -/
theorem bias_range_fatal :
    (∀ seg : List (ℤ × ℤ),
      (∃ e, encodeSegment seg = Except.error e) ↔
        ((2:ℤ) ^ 17 - 1 < |biasX seg| ∨ (2:ℤ) ^ 17 - 1 < |biasY seg|)) ∧
    (encodeSegment [((131071:ℤ), (0:ℤ)), (0, 0)]).isOk = true ∧
    (encodeSegment [((131072:ℤ), (0:ℤ)), (0, 0)]).isOk = false := by
  refine ⟨?_, by decide, by decide⟩
  intro seg
  constructor
  · rintro ⟨e, he⟩
    unfold encodeSegment at he
    split_ifs at he with h1 h2
    · exact Or.inl ((biasOutOfRange_true_iff _).mp h1)
    · exact Or.inr ((biasOutOfRange_true_iff _).mp h2)
  · intro h
    unfold encodeSegment
    split_ifs with h1 h2
    · exact ⟨_, rfl⟩
    · exact ⟨_, rfl⟩
    · rcases h with h | h
      · exact absurd ((biasOutOfRange_true_iff _).mpr h) (by simp [h1])
      · exact absurd ((biasOutOfRange_true_iff _).mpr h) (by simp [h2])

/-! ## Minimal widths (claim C4) -/

/-- C4: each computed width is the exact minimum: for the vertex count
`n` and for the (zero-forced-to-1) delta ranges `m`,
`2^(width-1) ≤ m < 2^width` with `m ≥ 1`, and a zero range yields
width 1. -/
theorem minimal_bit_widths (seg : List (ℤ × ℤ)) (h2 : 2 ≤ seg.length) :
    (2 ^ (countBits seg - 1) ≤ seg.length ∧ seg.length < 2 ^ countBits seg) ∧
    (1 ≤ (forcedRangeX seg).toNat ∧
      2 ^ (lonOffsetBits seg - 1) ≤ (forcedRangeX seg).toNat ∧
      (forcedRangeX seg).toNat < 2 ^ lonOffsetBits seg) ∧
    (1 ≤ (forcedRangeY seg).toNat ∧
      2 ^ (latOffsetBits seg - 1) ≤ (forcedRangeY seg).toNat ∧
      (forcedRangeY seg).toNat < 2 ^ latOffsetBits seg) ∧
    (rangeX seg = 0 → lonOffsetBits seg = 1) ∧
    (rangeY seg = 0 → latOffsetBits seg = 1) := by
  obtain ⟨p0, p1, rest, rfl⟩ : ∃ p0 p1 rest, seg = p0 :: p1 :: rest := by
    match seg, h2 with
    | p0 :: p1 :: rest, _ => exact ⟨p0, p1, rest, rfl⟩
  have hr0 := range_nonneg p0 p1 rest
  have hfb := forcedRange_bounds _ hr0.1 hr0.2
  refine ⟨⟨?_, ?_⟩, ⟨?_, ?_, ?_⟩, ⟨?_, ?_, ?_⟩, ?_, ?_⟩
  · rw [countBits_eq, Nat.add_sub_cancel]
    exact Nat.pow_log_le_self 2 (by simp)
  · rw [countBits_eq]
    exact Nat.lt_pow_succ_log_self (by norm_num) _
  · have := hfb.1.1; omega
  · rw [lonOffsetBits_eq, Nat.add_sub_cancel]
    exact Nat.pow_log_le_self 2 (by have := hfb.1.1; omega)
  · rw [lonOffsetBits_eq]
    exact Nat.lt_pow_succ_log_self (by norm_num) _
  · have := hfb.2.1; omega
  · rw [latOffsetBits_eq, Nat.add_sub_cancel]
    exact Nat.pow_log_le_self 2 (by have := hfb.2.1; omega)
  · rw [latOffsetBits_eq]
    exact Nat.lt_pow_succ_log_self (by norm_num) _
  · intro h
    have hfr : forcedRangeX (p0 :: p1 :: rest) = 1 := by
      simp [forcedRangeX, h]
    unfold lonOffsetBits
    rw [hfr]
    decide
  · intro h
    have hfr : forcedRangeY (p0 :: p1 :: rest) = 1 := by
      simp [forcedRangeY, h]
    unfold latOffsetBits
    rw [hfr]
    decide

/-- Witness for C4: widths of the two-vertex segment `[(0,0), (1,1)]`. -/
theorem minimal_bit_widths_witness :
    2 ≤ ([((0:ℤ), (0:ℤ)), (1, 1)] : List (ℤ × ℤ)).length ∧
      (2 ^ (countBits [((0:ℤ), (0:ℤ)), (1, 1)] - 1) ≤
          ([((0:ℤ), (0:ℤ)), (1, 1)] : List (ℤ × ℤ)).length ∧
        ([((0:ℤ), (0:ℤ)), (1, 1)] : List (ℤ × ℤ)).length <
          2 ^ countBits [((0:ℤ), (0:ℤ)), (1, 1)]) :=
  ⟨by decide, (minimal_bit_widths _ (by decide)).1⟩

/-! ## Buffer size and trailing padding (claim C7) -/

theorem packOffsets_length (lob lab : ℕ) (bx bY : ℤ) :
    ∀ (rest : List (ℤ × ℤ)) (p : ℤ × ℤ),
      (packOffsets lob lab bx bY p rest).length = rest.length * (lob + lab) := by
  intro rest
  induction rest with
  | nil => intro p; simp [packOffsets]
  | cons q rest ih =>
    intro p
    simp [packOffsets, packField_length, ih q]
    ring

theorem packSegment_length (seg : List (ℤ × ℤ)) (h2 : 2 ≤ seg.length) :
    (packSegment seg).length = totalBits seg := by
  obtain ⟨p0, p1, rest, rfl⟩ : ∃ p0 p1 rest, seg = p0 :: p1 :: rest := by
    match seg, h2 with
    | p0 :: p1 :: rest, _ => exact ⟨p0, p1, rest, rfl⟩
  simp [packSegment, totalBits, packField_length, packOffsets_length]
  ring

/-- C7 counterexample: for the segment `[(0,0), (0,0), (100000,0)]` the
allocated buffer is 20 bytes, while `ceil(totalBits/8)` is 18 bytes — the
size formula of lines 709–712 adds one spurious
`lon_offset_bits + lat_offset_bits` term and then rounds with `/8 + 1`. -/
theorem buffer_size_counterexample :
    codeSize [((0:ℤ), (0:ℤ)), (0, 0), (100000, 0)] ≠
      (totalBits [((0:ℤ), (0:ℤ)), (0, 0), (100000, 0)] + 7) / 8 := by decide

/-- C7 (amended): the buffer holds
`(totalBits + lonOffsetBits + latOffsetBits)/8 + 1` bytes — at least
`ceil(totalBits/8)`, but not equal to it in general — the packed stream
occupies exactly `totalBits` bits of it, and all trailing bits beyond the
packed stream are zero. -/
theorem buffer_size_and_padding (seg : List (ℤ × ℤ)) (h2 : 2 ≤ seg.length) :
    (packSegment seg).length = totalBits seg ∧
    codeSize seg = (totalBits seg + lonOffsetBits seg + latOffsetBits seg) / 8 + 1 ∧
    (totalBits seg + 7) / 8 ≤ codeSize seg ∧
    (bufferBits seg).length = 8 * codeSize seg ∧
    (∀ b ∈ (bufferBits seg).drop (totalBits seg), b = false) := by
  have hlen := packSegment_length seg h2
  have hsize : codeSize seg =
      (totalBits seg + lonOffsetBits seg + latOffsetBits seg) / 8 + 1 := by
    simp only [codeSize, totalBits]
    generalize (seg.length - 1) * (lonOffsetBits seg + latOffsetBits seg) = k
    omega
  have hle : (totalBits seg + 7) / 8 ≤ codeSize seg := by
    rw [hsize]
    omega
  have hcap : totalBits seg ≤ 8 * codeSize seg := by
    rw [hsize]
    omega
  refine ⟨hlen, hsize, hle, ?_, ?_⟩
  · rw [bufferBits, List.length_append, List.length_replicate, hlen]
    omega
  · intro b hb
    rw [bufferBits, ← hlen, drop_len_append] at hb
    exact List.eq_of_mem_replicate hb

/-- Witness for C7 (amended): the buffer of `[(0,0), (1,1)]` is 14 bytes
with the packed stream occupying 106 bits. -/
theorem buffer_size_witness :
    2 ≤ ([((0:ℤ), (0:ℤ)), (1, 1)] : List (ℤ × ℤ)).length ∧
      ((packSegment [((0:ℤ), (0:ℤ)), (1, 1)]).length =
          totalBits [((0:ℤ), (0:ℤ)), (1, 1)] ∧
        codeSize [((0:ℤ), (0:ℤ)), (1, 1)] =
          (totalBits [((0:ℤ), (0:ℤ)), (1, 1)] +
            lonOffsetBits [((0:ℤ), (0:ℤ)), (1, 1)] +
            latOffsetBits [((0:ℤ), (0:ℤ)), (1, 1)]) / 8 + 1) :=
  ⟨by decide, ⟨(buffer_size_and_padding _ (by decide)).1,
    (buffer_size_and_padding _ (by decide)).2.1⟩⟩

/-! ## Offset non-negativity and upper bound (claim C8) -/

/-- C8 counterexample: the segment `[(0,0), (0,0), (300000,0)]` passes
both bias-range checks (`biasX = 0`), yet its stored longitude offset
`300000 + 0` exceeds `2 × max_bias = 262142` — the claimed upper bound
does not follow from the code's checks alone. -/
theorem offset_bias_counterexample :
    biasOutOfRange (biasX [((0:ℤ), (0:ℤ)), (0, 0), (300000, 0)]) = false ∧
    biasOutOfRange (biasY [((0:ℤ), (0:ℤ)), (0, 0), (300000, 0)]) = false ∧
    ¬ (∀ dx ∈ segDxs [((0:ℤ), (0:ℤ)), (0, 0), (300000, 0)],
        dx + biasX [((0:ℤ), (0:ℤ)), (0, 0), (300000, 0)] ≤ 2 * max_bias) := by
  decide

/-- C8 (amended): every stored offset `delta + bias` is non-negative by
construction of `bias = -min(delta)`; it is additionally at most
`2 × max_bias` provided the maximum delta of the segment is itself at
most `max_bias` (as holds for any segment confined to a one-degree
cell) — the bias-range checks alone bound only the minimum delta. -/
theorem offset_bias_bounds (seg : List (ℤ × ℤ)) (_h2 : 2 ≤ seg.length)
    (hbx : biasOutOfRange (biasX seg) = false)
    (hby : biasOutOfRange (biasY seg) = false) :
    (∀ dx ∈ segDxs seg, 0 ≤ dx + biasX seg ∧
      (foldMax (segDxs seg) ≤ max_bias → dx + biasX seg ≤ 2 * max_bias)) ∧
    (∀ dy ∈ segDys seg, 0 ≤ dy + biasY seg ∧
      (foldMax (segDys seg) ≤ max_bias → dy + biasY seg ≤ 2 * max_bias)) := by
  have hbxr := (biasOutOfRange_false_iff _).mp hbx
  have hbyr := (biasOutOfRange_false_iff _).mp hby
  constructor
  · intro dx hdx
    have h1 := foldMin_le_mem hdx
    have h2' := mem_le_foldMax hdx
    have hb : biasX seg = -foldMin (segDxs seg) := rfl
    omega
  · intro dy hdy
    have h1 := foldMin_le_mem hdy
    have h2' := mem_le_foldMax hdy
    have hb : biasY seg = -foldMin (segDys seg) := rfl
    omega

/-- Witness for C8 (amended): the segment `[(0,0), (1,1)]`. -/
theorem offset_bias_bounds_witness :
    biasOutOfRange (biasX [((0:ℤ), (0:ℤ)), (1, 1)]) = false ∧
      (∀ dx ∈ segDxs [((0:ℤ), (0:ℤ)), (1, 1)],
        0 ≤ dx + biasX [((0:ℤ), (0:ℤ)), (1, 1)] ∧
          (foldMax (segDxs [((0:ℤ), (0:ℤ)), (1, 1)]) ≤ max_bias →
            dx + biasX [((0:ℤ), (0:ℤ)), (1, 1)] ≤ 2 * max_bias)) :=
  ⟨by decide, (offset_bias_bounds _ (by decide) (by decide) (by decide)).1⟩

/-! ## Cell accumulator (src/main.c lines 350–491)

The external polygon source yields, per shape, `nParts`, the part-start
index array `panPartStart`, and the vertex coordinates `padfX`/`padfY`
(signed degrees, modelled as exact rationals).  A model vertex in the
current segment or the spool keeps ghost provenance (the shape index it
came from and its raw coordinates) alongside the spooled micro-unit
integers `segx[k]`/`segy[k]`; only `x`/`y` are written to the spool
file. -/

/-- One shape as delivered by `SHPReadObject`. -/
structure SHPShape where
  nParts : ℕ
  panPartStart : List ℕ
  vertices : List (ℚ × ℚ)

/-- One accumulated vertex: ghost provenance (`tag` = shape index,
`rawLon`/`rawLat` = the shape's coordinates) plus the spooled micro-unit
pair. -/
structure Vert where
  tag : ℕ
  rawLon : ℚ
  rawLat : ℚ
  x : ℤ
  y : ℤ

/-- The cell corner positions in arc-seconds (`cornerx`, `cornery`,
lines 261–301). -/
structure CellBounds where
  cx0 : ℚ
  cx1 : ℚ
  cy0 : ℚ
  cy1 : ℚ

/-- Accumulator state: the open segment (`segx`/`segy` with `segCount`),
the boundary flag `bad_flag`, and the segments already written to the
cell's spool file. -/
structure AccState where
  segCur : List Vert
  badFlag : Bool
  spool : List (List Vert)

/-- Modelled from the spec (glossary: micro-unit = round(value × 100000)):
`NINT` rounds to the nearest integer, halves away from zero. -/
def NINT (q : ℚ) : ℤ :=
  if q < 0 then -(((1 : ℚ) / 2 - q).floor) else ((q + 1 / 2).floor)

/-- The longitude epsilon of the boundary test (line 408). -/
def lonEps : ℚ := 1.00000000000000015

/-- The latitude epsilon of the boundary test (line 409). -/
def latEps : ℚ := 1.0

/-- The boundary-artifact test of lines 408–409, on shifted coordinates:
position in arc-seconds within epsilon of any of the four cell edges. -/
def isBadVertex (cb : CellBounds) (lon lat : ℚ) : Bool :=
  decide (|lon * 3600 - cb.cx0| < lonEps) ||
  decide (|lon * 3600 - cb.cx1| < lonEps) ||
  decide (|lat * 3600 - cb.cy0| < latEps) ||
  decide (|lat * 3600 - cb.cy1| < latEps)

/-- The `start_segment` flag as computed by lines 365–389: first vertex of
the shape (when it has parts), previous vertex was a boundary artifact, or
first vertex of a further ring/part. -/
def startSegment (sh : SHPShape) (j np : ℕ) (bf : Bool) : Bool :=
  (decide (j = 0) && decide (0 < sh.nParts)) || bf ||
    (decide (np < sh.nParts) && decide (sh.panPartStart.getD np 0 = j))

/-- The ring-start test of line 385 (which also advances `numParts`). -/
def isPartStart (sh : SHPShape) (np j : ℕ) : Bool :=
  decide (np < sh.nParts) && decide (sh.panPartStart.getD np 0 = j)

/-- The wrap-around clamp of line 417: `if (lon == 360.0) lon = 359.99999`. -/
def clampLon (lon : ℚ) : ℚ :=
  if lon = 360 then 359.99999 else lon

/-- The vertex actually appended to the current segment (lines 460–461),
with ghost provenance. -/
def mkVert (t : ℕ) (v : ℚ × ℚ) : Vert :=
  ⟨t, v.1, v.2, NINT (clampLon (v.1 + 180) * 100000), NINT ((v.2 + 90) * 100000)⟩

/-- One iteration of the vertex loop (lines 363–468): compute
`start_segment`, advance `numParts`, shift the coordinates, and either
flag a boundary artifact or append the vertex (flushing the previous
segment to the spool if a new one starts and it has more than one
vertex). -/
def stepVertex (cb : CellBounds) (t : ℕ) (sh : SHPShape)
    (s : ℕ × AccState) (jv : ℕ × (ℚ × ℚ)) : ℕ × AccState :=
  let j := jv.1
  let v := jv.2
  let np := s.1
  let st := s.2
  let start := startSegment sh j np st.badFlag
  let np2 := if isPartStart sh np j then np + 1 else np
  if isBadVertex cb (v.1 + 180) (v.2 + 90) then
    (np2, { st with badFlag := true })
  else
    let spool2 := if start then
        (if 1 < st.segCur.length then st.spool ++ [st.segCur] else st.spool)
      else st.spool
    let cur2 := if start then [] else st.segCur
    (np2, { segCur := cur2 ++ [mkVert t v], badFlag := false, spool := spool2 })

/-- Process one shape (lines 352–475): shapes with fewer than two
vertices contribute nothing; otherwise run the vertex loop with
`numParts` starting at 1. -/
def processShape (cb : CellBounds) (t : ℕ) (sh : SHPShape) (st : AccState) : AccState :=
  if 2 ≤ sh.vertices.length then
    (sh.vertices.enum.foldl (stepVertex cb t sh) (1, st)).2
  else st

/-- Process all shapes of one cell's input file, tagging each shape with
its index. -/
def processShapes (cb : CellBounds) (shapes : List SHPShape) (st : AccState) : AccState :=
  shapes.enum.foldl (fun st2 ts => processShape cb ts.1 ts.2 st2) st

/-- `segCount = 0`, `bad_flag = NVFalse` at the start of a cell's file
(lines 324, 351). -/
def initState : AccState := ⟨[], false, []⟩

/-- The final flush of lines 480–491: the trailing open segment is spooled
when it has more than one vertex. -/
def flushFinal (st : AccState) : List (List Vert) :=
  if 1 < st.segCur.length then st.spool ++ [st.segCur] else st.spool

/-- The whole accumulation for one cell: the ordered list of segments
written to the cell's spool file. -/
def accumulateCell (cb : CellBounds) (shapes : List SHPShape) : List (List Vert) :=
  flushFinal (processShapes cb shapes initState)

/-! ## Boundary-artifact filtering (claim C6) -/

/-- A vertex (by its raw coordinates) that passes the boundary test. -/
def goodVert (cb : CellBounds) (v : Vert) : Prop :=
  isBadVertex cb (v.rawLon + 180) (v.rawLat + 90) = false

/-- Every vertex held in the accumulator state passed the boundary test. -/
def allGood (cb : CellBounds) (st : AccState) : Prop :=
  (∀ v ∈ st.segCur, goodVert cb v) ∧ ∀ s ∈ st.spool, ∀ v ∈ s, goodVert cb v

theorem foldl_preserve {α : Type _} {β : Type _} (P : α → Prop) (f : α → β → α)
    (h : ∀ a b, P a → P (f a b)) :
    ∀ (l : List β) (a : α), P a → P (l.foldl f a) := by
  intro l
  induction l with
  | nil => intro a ha; exact ha
  | cons b t ih => intro a ha; exact ih _ (h a b ha)

theorem foldl_preserve_mem {α : Type _} {β : Type _} (P : α → Prop) (f : α → β → α) :
    ∀ (l : List β), (∀ a b, b ∈ l → P a → P (f a b)) →
      ∀ a, P a → P (l.foldl f a) := by
  intro l
  induction l with
  | nil => intro _ a ha; exact ha
  | cons b t ih =>
    intro hstep a ha
    exact ih (fun a2 b2 hb2 => hstep a2 b2 (List.mem_cons_of_mem _ hb2)) _
      (hstep a b (List.mem_cons_self _ _) ha)

theorem snd_mem_of_mem_enumFrom {α : Type _} :
    ∀ (l : List α) (n : ℕ) (x : ℕ × α), x ∈ l.enumFrom n → x.2 ∈ l := by
  intro l
  induction l with
  | nil => intro n x hx; simp [List.enumFrom] at hx
  | cons a t ih =>
    intro n x hx
    rw [List.enumFrom_cons] at hx
    rcases List.mem_cons.mp hx with rfl | hx
    · exact List.mem_cons_self _ _
    · exact List.mem_cons_of_mem _ (ih _ _ hx)

/-- A boundary-artifact vertex is dropped: the state keeps its segment and
spool and only raises `bad_flag` (lines 408–412). -/
theorem stepVertex_eq_bad {cb : CellBounds} {t : ℕ} {sh : SHPShape}
    {np : ℕ} {st : AccState} {j : ℕ} {v : ℚ × ℚ}
    (hbad : isBadVertex cb (v.1 + 180) (v.2 + 90) = true) :
    stepVertex cb t sh (np, st) (j, v) =
      ((if isPartStart sh np j then np + 1 else np), { st with badFlag := true }) := by
  simp [stepVertex, hbad]

/-- A good vertex is appended, after flushing the previous segment when a
new one starts (lines 413–467). -/
theorem stepVertex_eq_good {cb : CellBounds} {t : ℕ} {sh : SHPShape}
    {np : ℕ} {st : AccState} {j : ℕ} {v : ℚ × ℚ}
    (hbad : isBadVertex cb (v.1 + 180) (v.2 + 90) = false) :
    stepVertex cb t sh (np, st) (j, v) =
      ((if isPartStart sh np j then np + 1 else np),
        { segCur := (if startSegment sh j np st.badFlag then [] else st.segCur) ++
            [mkVert t v],
          badFlag := false,
          spool := if startSegment sh j np st.badFlag then
              (if 1 < st.segCur.length then st.spool ++ [st.segCur] else st.spool)
            else st.spool }) := by
  simp [stepVertex, hbad]

theorem stepVertex_allGood (cb : CellBounds) (t : ℕ) (sh : SHPShape)
    (s : ℕ × AccState) (jv : ℕ × (ℚ × ℚ)) (h : allGood cb s.2) :
    allGood cb (stepVertex cb t sh s jv).2 := by
  obtain ⟨np, st⟩ := s
  obtain ⟨j, v⟩ := jv
  obtain ⟨hcur, hsp⟩ := h
  by_cases hbad : isBadVertex cb (v.1 + 180) (v.2 + 90) = true
  · rw [stepVertex_eq_bad hbad]
    exact ⟨hcur, hsp⟩
  · rw [Bool.not_eq_true] at hbad
    rw [stepVertex_eq_good hbad]
    constructor
    · intro w hw
      rcases List.mem_append.mp hw with hw | hw
      · split at hw
        · cases hw
        · exact hcur w hw
      · rcases List.mem_singleton.mp hw with rfl
        exact hbad
    · intro seg hseg w hw
      dsimp only at hseg
      split at hseg
      · split at hseg
        · rcases List.mem_append.mp hseg with hseg | hseg
          · exact hsp seg hseg w hw
          · rcases List.mem_singleton.mp hseg with rfl
            exact hcur w hw
        · exact hsp seg hseg w hw
      · exact hsp seg hseg w hw

theorem processShape_allGood (cb : CellBounds) (t : ℕ) (sh : SHPShape)
    (st : AccState) (h : allGood cb st) :
    allGood cb (processShape cb t sh st) := by
  unfold processShape
  split
  · exact foldl_preserve (fun p : ℕ × AccState => allGood cb p.2) _
      (fun a b ha => stepVertex_allGood cb t sh a b ha) _ _ h
  · exact h

theorem processShapes_allGood (cb : CellBounds) (shapes : List SHPShape)
    (st : AccState) (h : allGood cb st) :
    allGood cb (processShapes cb shapes st) := by
  unfold processShapes
  exact foldl_preserve (fun st2 => allGood cb st2) _
    (fun a b ha => processShape_allGood cb b.1 b.2 a ha) _ _ h

theorem accumulateCell_allGood (cb : CellBounds) (shapes : List SHPShape) :
    ∀ seg ∈ accumulateCell cb shapes, ∀ v ∈ seg, goodVert cb v := by
  have h := processShapes_allGood cb shapes initState
    ⟨fun v hv => (nomatch hv), fun s hs => (nomatch hs)⟩
  intro seg hseg v hv
  unfold accumulateCell flushFinal at hseg
  split at hseg
  · rcases List.mem_append.mp hseg with hseg | hseg
    · exact h.2 seg hseg v hv
    · rcases List.mem_singleton.mp hseg with rfl
      exact h.1 v hv
  · exact h.2 seg hseg v hv

/-- C6: a vertex whose arc-second position is within the defined epsilon
(`1.00000000000000015` arc-seconds for the longitude edges, `1.0` for the
latitude edges) of any of the four cell edges is never emitted into any
output segment of the accumulator; processing such a vertex discards it
(segment and spool unchanged) and raises `bad_flag`; a raised `bad_flag`
forces the start-of-segment condition for the next vertex; and the next
good vertex after a flagged one begins a fresh segment containing only
itself. -/
theorem boundary_artifact_filtering :
    (∀ (cb : CellBounds) (shapes : List SHPShape),
      ∀ seg ∈ accumulateCell cb shapes, ∀ v ∈ seg,
        isBadVertex cb (v.rawLon + 180) (v.rawLat + 90) = false) ∧
    (∀ (cb : CellBounds) (t : ℕ) (sh : SHPShape) (np : ℕ) (st : AccState)
        (j : ℕ) (v : ℚ × ℚ), isBadVertex cb (v.1 + 180) (v.2 + 90) = true →
      (stepVertex cb t sh (np, st) (j, v)).2.badFlag = true ∧
      (stepVertex cb t sh (np, st) (j, v)).2.segCur = st.segCur ∧
      (stepVertex cb t sh (np, st) (j, v)).2.spool = st.spool) ∧
    (∀ (sh : SHPShape) (j np : ℕ), startSegment sh j np true = true) ∧
    (∀ (cb : CellBounds) (t : ℕ) (sh : SHPShape) (np : ℕ) (st : AccState)
        (j : ℕ) (v : ℚ × ℚ), st.badFlag = true →
      isBadVertex cb (v.1 + 180) (v.2 + 90) = false →
      (stepVertex cb t sh (np, st) (j, v)).2.segCur = [mkVert t v]) := by
  refine ⟨?_, ?_, ?_, ?_⟩
  · exact fun cb shapes => accumulateCell_allGood cb shapes
  · intro cb t sh np st j v hbad
    rw [stepVertex_eq_bad hbad]
    exact ⟨rfl, rfl, rfl⟩
  · intro sh j np
    simp [startSegment]
  · intro cb t sh np st j v hbf hbad
    rw [stepVertex_eq_good hbad]
    have hst : startSegment sh j np st.badFlag = true := by
      simp [startSegment, hbf]
    simp [hst]

/-- Witness for C6: with cell corners `(0, 3600) × (0, 3600)` the vertex
`(-180, -89.5)` sits on the west edge and is flagged; the good vertex
`(-179.5, -89.5)` processed under a raised flag starts a fresh segment. -/
theorem boundary_artifact_filtering_witness :
    isBadVertex ⟨0, 3600, 0, 3600⟩ ((-180 : ℚ) + 180) ((-89.5 : ℚ) + 90) = true ∧
    (stepVertex ⟨0, 3600, 0, 3600⟩ 0 ⟨1, [0], [((-180 : ℚ), (-89.5 : ℚ))]⟩
        (1, initState) (1, ((-180 : ℚ), (-89.5 : ℚ)))).2.badFlag = true ∧
    (stepVertex ⟨0, 3600, 0, 3600⟩ 0 ⟨1, [0], []⟩ (1, ⟨[], true, []⟩)
        (2, ((-179.5 : ℚ), (-89.5 : ℚ)))).2.segCur =
      [mkVert 0 ((-179.5 : ℚ), (-89.5 : ℚ))] := by
  have hbad : isBadVertex ⟨0, 3600, 0, 3600⟩ ((-180 : ℚ) + 180) ((-89.5 : ℚ) + 90) = true := by
    simp only [isBadVertex, Bool.or_eq_true, decide_eq_true_eq, lonEps, latEps]
    norm_num
  have hgood : isBadVertex ⟨0, 3600, 0, 3600⟩ ((-179.5 : ℚ) + 180) ((-89.5 : ℚ) + 90) = false := by
    simp only [isBadVertex, Bool.or_eq_false_iff, decide_eq_false_iff_not, lonEps, latEps]
    norm_num
  exact ⟨hbad,
    (boundary_artifact_filtering.2.1 ⟨0, 3600, 0, 3600⟩ 0
      ⟨1, [0], [((-180 : ℚ), (-89.5 : ℚ))]⟩ 1 initState 1
      ((-180 : ℚ), (-89.5 : ℚ)) hbad).1,
    boundary_artifact_filtering.2.2.2 ⟨0, 3600, 0, 3600⟩ 0 ⟨1, [0], []⟩ 1
      ⟨[], true, []⟩ 2 ((-179.5 : ℚ), (-89.5 : ℚ)) rfl hgood⟩

/-! ## Segment-start conditions and shape separation (claim C9) -/

/-- All vertices of a segment carry the same ghost shape tag. -/
def segTags (t : ℕ) (l : List Vert) : Prop := ∀ v ∈ l, v.tag = t

/-- Between shapes: the open segment and every spooled segment are each
tag-uniform. -/
def InvPre (st : AccState) : Prop :=
  (∃ u, segTags u st.segCur) ∧ ∀ s ∈ st.spool, ∃ u, segTags u s

/-- Within shape `t`: additionally, a non-empty open segment either
already belongs to shape `t` or is protected by `bad_flag` (the next good
vertex will start a new segment before mixing shapes). -/
def InvMid (t : ℕ) (st : AccState) : Prop :=
  InvPre st ∧ (st.segCur = [] ∨ segTags t st.segCur ∨ st.badFlag = true)

theorem stepVertex_invMid (cb : CellBounds) (t : ℕ) (sh : SHPShape)
    (np : ℕ) (st : AccState) (j : ℕ) (v : ℚ × ℚ)
    (h : InvMid t st) : InvMid t (stepVertex cb t sh (np, st) (j, v)).2 := by
  obtain ⟨⟨⟨u, hu⟩, hsp⟩, hdisj⟩ := h
  by_cases hbad : isBadVertex cb (v.1 + 180) (v.2 + 90) = true
  · rw [stepVertex_eq_bad hbad]
    exact ⟨⟨⟨u, hu⟩, hsp⟩, Or.inr (Or.inr rfl)⟩
  · rw [Bool.not_eq_true] at hbad
    rw [stepVertex_eq_good hbad]
    by_cases hst : startSegment sh j np st.badFlag = true
    · simp only [hst, if_true]
      refine ⟨⟨⟨t, ?_⟩, ?_⟩, Or.inr (Or.inl ?_)⟩
      · intro w hw
        rcases List.mem_singleton.mp (by simpa using hw) with rfl
        rfl
      · intro s hs
        split at hs
        · rcases List.mem_append.mp hs with hs | hs
          · exact hsp s hs
          · rcases List.mem_singleton.mp hs with rfl
            exact ⟨u, hu⟩
        · exact hsp s hs
      · intro w hw
        rcases List.mem_singleton.mp (by simpa using hw) with rfl
        rfl
    · have hbf : st.badFlag = false := by
        cases hb : st.badFlag
        · rfl
        · exact absurd (by simp [startSegment, hb]) hst
      rw [Bool.not_eq_true] at hst
      simp only [hst, if_false]
      have hcurtags : segTags t st.segCur := by
        rcases hdisj with hemp | htags | hbf2
        · intro w hw; rw [hemp] at hw; cases hw
        · exact htags
        · rw [hbf] at hbf2; cases hbf2
      refine ⟨⟨⟨t, ?_⟩, hsp⟩, Or.inr (Or.inl ?_)⟩
      · intro w hw
        rcases List.mem_append.mp hw with hw | hw
        · exact hcurtags w hw
        · rcases List.mem_singleton.mp hw with rfl
          rfl
      · intro w hw
        rcases List.mem_append.mp hw with hw | hw
        · exact hcurtags w hw
        · rcases List.mem_singleton.mp hw with rfl
          rfl

theorem stepVertex_first_invMid (cb : CellBounds) (t : ℕ) (sh : SHPShape)
    (hp : 0 < sh.nParts) (np : ℕ) (st : AccState) (v : ℚ × ℚ)
    (h : InvPre st) : InvMid t (stepVertex cb t sh (np, st) (0, v)).2 := by
  obtain ⟨⟨u, hu⟩, hsp⟩ := h
  by_cases hbad : isBadVertex cb (v.1 + 180) (v.2 + 90) = true
  · rw [stepVertex_eq_bad hbad]
    exact ⟨⟨⟨u, hu⟩, hsp⟩, Or.inr (Or.inr rfl)⟩
  · rw [Bool.not_eq_true] at hbad
    rw [stepVertex_eq_good hbad]
    have hst : startSegment sh 0 np st.badFlag = true := by
      simp [startSegment, hp]
    simp only [hst, if_true]
    refine ⟨⟨⟨t, ?_⟩, ?_⟩, Or.inr (Or.inl ?_)⟩
    · intro w hw
      rcases List.mem_singleton.mp (by simpa using hw) with rfl
      rfl
    · intro s hs
      split at hs
      · rcases List.mem_append.mp hs with hs | hs
        · exact hsp s hs
        · rcases List.mem_singleton.mp hs with rfl
          exact ⟨u, hu⟩
      · exact hsp s hs
    · intro w hw
      rcases List.mem_singleton.mp (by simpa using hw) with rfl
      rfl

theorem processShape_invPre (cb : CellBounds) (t : ℕ) (sh : SHPShape)
    (st : AccState) (hp : 0 < sh.nParts) (h : InvPre st) :
    InvPre (processShape cb t sh st) := by
  unfold processShape
  split
  case isTrue h2 =>
    obtain ⟨v0, rest, hv⟩ : ∃ v0 rest, sh.vertices = v0 :: rest := by
      match hvs : sh.vertices, h2 with
      | v0 :: rest, _ => exact ⟨v0, rest, rfl⟩
    rw [hv, List.enum_cons, List.foldl_cons]
    have h0 : InvMid t (stepVertex cb t sh (1, st) (0, v0)).2 :=
      stepVertex_first_invMid cb t sh hp 1 st v0 h
    have hfold := foldl_preserve (fun p : ℕ × AccState => InvMid t p.2)
      (stepVertex cb t sh)
      (fun a b ha => by
        obtain ⟨np2, st2⟩ := a
        obtain ⟨j2, v2⟩ := b
        exact stepVertex_invMid cb t sh np2 st2 j2 v2 ha)
      (rest.enumFrom 1) (stepVertex cb t sh (1, st) (0, v0))
      (by
        have he : stepVertex cb t sh (1, st) (0, v0) =
            ((stepVertex cb t sh (1, st) (0, v0)).1,
              (stepVertex cb t sh (1, st) (0, v0)).2) := rfl
        rw [he]
        exact h0)
    exact hfold.1
  case isFalse => exact h

theorem processShapes_invPre (cb : CellBounds) (shapes : List SHPShape)
    (hp : ∀ sh ∈ shapes, 0 < sh.nParts) (st : AccState) (h : InvPre st) :
    InvPre (processShapes cb shapes st) := by
  unfold processShapes
  refine foldl_preserve_mem (fun st2 => InvPre st2) _ shapes.enum ?_ st h
  intro a b hb ha
  have hmem : b.2 ∈ shapes := snd_mem_of_mem_enumFrom shapes 0 b hb
  exact processShape_invPre cb b.1 b.2 a (hp b.2 hmem) ha

theorem accumulateCell_uniform_tags (cb : CellBounds) (shapes : List SHPShape)
    (hp : ∀ sh ∈ shapes, 0 < sh.nParts) :
    ∀ seg ∈ accumulateCell cb shapes, ∃ u, segTags u seg := by
  have h := processShapes_invPre cb shapes hp initState
    ⟨⟨0, fun v hv => (nomatch hv)⟩, fun s hs => (nomatch hs)⟩
  intro seg hseg
  unfold accumulateCell flushFinal at hseg
  split at hseg
  · rcases List.mem_append.mp hseg with hseg | hseg
    · exact h.2 seg hseg
    · rcases List.mem_singleton.mp hseg with rfl
      exact h.1
  · exact h.2 seg hseg

/-- C9: `start_segment` is raised exactly for the first vertex of a shape
with parts, after a boundary-artifact vertex, or at a recorded ring/part
start; for any shape with at least one part the first vertex always
starts a new segment; consequently (tagging each shape's vertices with
the shape index) every accumulated segment is tag-uniform — no segment
mixes vertices of two different shapes. -/
theorem segment_start_conditions :
    (∀ (sh : SHPShape) (j np : ℕ) (bf : Bool),
      startSegment sh j np bf = true ↔
        ((j = 0 ∧ 0 < sh.nParts) ∨ bf = true ∨
          (np < sh.nParts ∧ sh.panPartStart.getD np 0 = j))) ∧
    (∀ (sh : SHPShape) (np : ℕ) (bf : Bool), 0 < sh.nParts →
      startSegment sh 0 np bf = true) ∧
    (∀ (cb : CellBounds) (shapes : List SHPShape),
      (∀ sh ∈ shapes, 0 < sh.nParts) →
      ∀ seg ∈ accumulateCell cb shapes, ∃ u, ∀ v ∈ seg, v.tag = u) := by
  refine ⟨?_, ?_, ?_⟩
  · intro sh j np bf
    simp [startSegment]
    tauto
  · intro sh np bf hp
    simp [startSegment, hp]
  · intro cb shapes hp seg hseg
    exact accumulateCell_uniform_tags cb shapes hp seg hseg

/-- Witness for C9: two one-part shapes of two vertices each; every
accumulated segment is tag-uniform, and the first vertex of a one-part
shape starts a segment. -/
theorem segment_start_conditions_witness :
    startSegment ⟨1, [0], []⟩ 0 5 false = true ∧
      (∀ sh ∈ [(⟨1, [0], [((0.5 : ℚ), (0.5 : ℚ)), ((0.6 : ℚ), (0.6 : ℚ))]⟩ : SHPShape),
          ⟨1, [0], [((0.7 : ℚ), (0.7 : ℚ)), ((0.8 : ℚ), (0.8 : ℚ))]⟩], 0 < sh.nParts) ∧
      (∀ seg ∈ accumulateCell ⟨0, 3600, 0, 3600⟩
          [⟨1, [0], [((0.5 : ℚ), (0.5 : ℚ)), ((0.6 : ℚ), (0.6 : ℚ))]⟩,
            ⟨1, [0], [((0.7 : ℚ), (0.7 : ℚ)), ((0.8 : ℚ), (0.8 : ℚ))]⟩],
        ∃ u, ∀ v ∈ seg, v.tag = u) := by
  have hp : ∀ sh ∈ [(⟨1, [0], [((0.5 : ℚ), (0.5 : ℚ)), ((0.6 : ℚ), (0.6 : ℚ))]⟩ : SHPShape),
      ⟨1, [0], [((0.7 : ℚ), (0.7 : ℚ)), ((0.8 : ℚ), (0.8 : ℚ))]⟩], 0 < sh.nParts := by
    intro sh hsh
    rcases List.mem_cons.mp hsh with rfl | hsh
    · exact Nat.one_pos
    · rcases List.mem_singleton.mp hsh with rfl
      exact Nat.one_pos
  exact ⟨segment_start_conditions.2.1 ⟨1, [0], []⟩ 5 false Nat.one_pos, hp,
    segment_start_conditions.2.2 ⟨0, 3600, 0, 3600⟩ _ hp⟩

/-! ## Codec pass over all cells (src/main.c lines 534–793)

The directory is a function from `(latIdx, lonIdx)` to entries, initially
all zero (lines 552–571); the write cursor starts right after the
128-byte version string and the 180×360×12-byte directory
(`ftell` after the header-init loop).  A cell's spool file is
`Option (List segment)`: `none` when `fopen` fails (no file), `some segs`
otherwise; processing a cell packs its segments of more than one vertex,
backpatches the entry with the region address and the counts, and deletes
the spool (lines 600–783). -/

/-- One directory entry: address, number of segments, number of vertices
(lines 769–780). -/
structure DirEntry where
  address : ℕ
  numSegments : ℕ
  numVertices : ℕ
deriving DecidableEq

/-- The zero placeholder entry (lines 558–560). -/
def zeroEntry : DirEntry := ⟨0, 0, 0⟩

/-- File position after the version string and the zeroed directory:
`128 + 180*360*12`. -/
def headerBytes : ℕ := 128 + 180 * 360 * 12

/-- The cells in processing order: latitude index outer (lines 581),
longitude index inner (line 587). -/
@[irreducible] def cellList : List (ℕ × ℕ) :=
  (List.range 180).flatMap (fun i => (List.range 360).map (fun j => (i, j)))

/-- The segments actually packed: `if (segCount > 1)` of line 615. -/
def packedSegs (segs : List (List (ℤ × ℤ))) : List (List (ℤ × ℤ)) :=
  segs.filter (fun s => decide (1 < s.length))

/-- Processing one cell's spool at write offset `ofs`: the directory entry
written for it and the next write offset. -/
def processCellSpool (ofs : ℕ) (segs : List (List (ℤ × ℤ))) : DirEntry × ℕ :=
  (⟨ofs, (packedSegs segs).length, ((packedSegs segs).map List.length).sum⟩,
    ofs + ((packedSegs segs).map codeSize).sum)

/-- Codec-pass state: the directory, the end-of-file write offset, and the
remaining spool files. -/
structure RunState where
  dir : ℕ × ℕ → DirEntry
  ofs : ℕ
  spools : ℕ × ℕ → Option (List (List (ℤ × ℤ)))

/-- One cell of the codec loop: skip if the spool does not open
(line 600); otherwise pack, backpatch the entry, and delete the spool
(lines 600–783). -/
def stepCell (rs : RunState) (c : ℕ × ℕ) : RunState :=
  match rs.spools c with
  | none => rs
  | some segs =>
    { dir := fun c2 => if c2 = c then (processCellSpool rs.ofs segs).1 else rs.dir c2,
      ofs := (processCellSpool rs.ofs segs).2,
      spools := fun c2 => if c2 = c then none else rs.spools c2 }

/-- State after writing the version string and the zeroed directory. -/
def initRun (spools : ℕ × ℕ → Option (List (List (ℤ × ℤ)))) : RunState :=
  ⟨fun _ => zeroEntry, headerBytes, spools⟩

/-- The whole codec pass. -/
def runCodec (spools : ℕ × ℕ → Option (List (List (ℤ × ℤ)))) : RunState :=
  cellList.foldl stepCell (initRun spools)

theorem foldl_stepCell_not_mem (l : List (ℕ × ℕ)) :
    ∀ (rs : RunState) (c : ℕ × ℕ), c ∉ l →
      (l.foldl stepCell rs).dir c = rs.dir c ∧
        (l.foldl stepCell rs).spools c = rs.spools c := by
  induction l with
  | nil => intro rs c _; exact ⟨rfl, rfl⟩
  | cons d t ih =>
    intro rs c hc
    have hcd : c ≠ d := fun h => hc (h ▸ List.mem_cons_self _ _)
    have hct : c ∉ t := fun h => hc (List.mem_cons_of_mem _ h)
    have hstep : (stepCell rs d).dir c = rs.dir c ∧
        (stepCell rs d).spools c = rs.spools c := by
      unfold stepCell
      cases rs.spools d
      · exact ⟨rfl, rfl⟩
      · simp [hcd]
    rw [List.foldl_cons]
    obtain ⟨h1, h2⟩ := ih (stepCell rs d) c hct
    exact ⟨h1.trans hstep.1, h2.trans hstep.2⟩

theorem stepCell_ofs_le (rs : RunState) (c : ℕ × ℕ) : rs.ofs ≤ (stepCell rs c).ofs := by
  unfold stepCell
  cases rs.spools c
  · exact le_rfl
  · exact Nat.le_add_right _ _

theorem foldl_stepCell_ofs_le (l : List (ℕ × ℕ)) :
    ∀ rs : RunState, rs.ofs ≤ (l.foldl stepCell rs).ofs := by
  induction l with
  | nil => intro rs; exact le_rfl
  | cons d t ih =>
    intro rs
    exact (stepCell_ofs_le rs d).trans (ih (stepCell rs d))

theorem mem_cellList (i j : ℕ) (hi : i < 180) (hj : j < 360) :
    (i, j) ∈ cellList := by
  unfold cellList
  rw [List.mem_flatMap]
  exact ⟨i, List.mem_range.mpr hi, List.mem_map.mpr ⟨j, List.mem_range.mpr hj, rfl⟩⟩

theorem nodup_cellList : cellList.Nodup := by
  unfold cellList
  rw [List.nodup_flatMap]
  constructor
  · intro i _
    exact (List.nodup_range 360).map (fun a b h => (Prod.mk.injEq _ _ _ _).mp h |>.2)
  · have hpw := List.pairwise_lt_range 180
    refine hpw.imp ?_
    intro a b hab
    intro x hxa hxb
    obtain ⟨ja, _, rfl⟩ := List.mem_map.mp hxa
    obtain ⟨jb, _, hEq⟩ := List.mem_map.mp hxb
    have := (Prod.mk.injEq _ _ _ _).mp hEq |>.1
    omega

/-- A cell whose spool file does not open leaves the state unchanged. -/
theorem stepCell_none {rs : RunState} {c : ℕ × ℕ} (h : rs.spools c = none) :
    stepCell rs c = rs := by
  simp [stepCell, h]

/-- A cell with a spool gets its entry written at the current offset, and
its spool deleted. -/
theorem stepCell_some {rs : RunState} {c : ℕ × ℕ} {segs : List (List (ℤ × ℤ))}
    (h : rs.spools c = some segs) :
    (stepCell rs c).dir c = (processCellSpool rs.ofs segs).1 ∧
      (stepCell rs c).spools c = none ∧
      (stepCell rs c).ofs = (processCellSpool rs.ofs segs).2 := by
  simp [stepCell, h]

/-- The characterisation of one cell's final directory entry and spool
after the full codec pass. -/
theorem runCodec_char (spools : ℕ × ℕ → Option (List (List (ℤ × ℤ))))
    (c : ℕ × ℕ) (hc : c ∈ cellList) :
    (spools c = none → (runCodec spools).dir c = zeroEntry) ∧
    (∀ segs, spools c = some segs →
      headerBytes ≤ ((runCodec spools).dir c).address ∧
      (runCodec spools).dir c =
        ⟨((runCodec spools).dir c).address, (packedSegs segs).length,
          ((packedSegs segs).map List.length).sum⟩) ∧
    (runCodec spools).spools c = none := by
  obtain ⟨l1, l2, hsplit⟩ := List.append_of_mem hc
  have hnodup := nodup_cellList
  rw [hsplit] at hnodup
  have hnl1 : c ∉ l1 := by
    rcases List.nodup_append.mp hnodup with ⟨_, _, hdisj⟩
    intro hmem
    exact hdisj hmem (List.mem_cons_self _ _)
  have hnl2 : c ∉ l2 := by
    rcases List.nodup_append.mp hnodup with ⟨_, hn2, _⟩
    exact (List.nodup_cons.mp hn2).1
  have hrun : runCodec spools =
      l2.foldl stepCell (stepCell (l1.foldl stepCell (initRun spools)) c) := by
    rw [runCodec, hsplit, List.foldl_append, List.foldl_cons]
  have h1 := foldl_stepCell_not_mem l1 (initRun spools) c hnl1
  have hofs1 : headerBytes ≤ (l1.foldl stepCell (initRun spools)).ofs :=
    foldl_stepCell_ofs_le l1 (initRun spools)
  have h2 := foldl_stepCell_not_mem l2
    (stepCell (l1.foldl stepCell (initRun spools)) c) c hnl2
  refine ⟨?_, ?_, ?_⟩
  · intro hnone
    have hsp : (l1.foldl stepCell (initRun spools)).spools c = none := by
      rw [h1.2]; exact hnone
    rw [hrun, h2.1, stepCell_none hsp, h1.1]
    rfl
  · intro segs hsome
    have hsp : (l1.foldl stepCell (initRun spools)).spools c = some segs := by
      rw [h1.2]; exact hsome
    have hstep := stepCell_some hsp
    constructor
    · rw [hrun, h2.1, hstep.1]
      exact hofs1
    · rw [hrun, h2.1, hstep.1]
      rfl
  · rw [hrun, h2.2]
    cases hsp : (l1.foldl stepCell (initRun spools)).spools c with
    | none =>
      rw [stepCell_none hsp]
      exact hsp
    | some segs => exact (stepCell_some hsp).2.1

/-- C5 counterexample input: cell `(0,0)` has a spool file holding zero
segments (as happens whenever the input shapefile exists but every shape
is filtered out); all other cells have no spool. -/
def spoolsEmptyCell : ℕ × ℕ → Option (List (List (ℤ × ℤ))) :=
  fun c => if c = (0, 0) then some [] else none

/-- C5 counterexample: a cell with zero spooled segments does NOT keep the
all-zero directory entry — its spool file opens, so the codec backpatches
the entry with the current region address (≥ `headerBytes` > 0) and zero
counts. -/
theorem directory_zero_segments_counterexample :
    spoolsEmptyCell (0, 0) = some [] ∧
      (runCodec spoolsEmptyCell).dir (0, 0) ≠ zeroEntry := by
  refine ⟨rfl, ?_⟩
  have hc := runCodec_char spoolsEmptyCell (0, 0)
    (mem_cellList 0 0 (by decide) (by decide))
  have h := (hc.2.1 [] rfl).1
  intro heq
  rw [heq] at h
  simp [zeroEntry, headerBytes] at h

/-- C5 (amended): after a full run, for every cell whose spool file
exists the directory entry's segmentCount is the number of packed
segments (those with more than one vertex) and vertexCount is the sum of
their vertex counts; for every cell with NO spool file the entry remains
all-zero.  (A cell whose spool exists but holds zero segments gets a
backpatched entry — nonzero address, zero counts — not the all-zero
placeholder.) -/
theorem directory_completeness (spools : ℕ × ℕ → Option (List (List (ℤ × ℤ))))
    (c : ℕ × ℕ) (hc : c ∈ cellList) :
    (spools c = none → (runCodec spools).dir c = zeroEntry) ∧
    (∀ segs, spools c = some segs →
      ((runCodec spools).dir c).numSegments = (packedSegs segs).length ∧
      ((runCodec spools).dir c).numVertices =
        ((packedSegs segs).map List.length).sum) := by
  obtain ⟨hnone, hsome, _⟩ := runCodec_char spools c hc
  refine ⟨hnone, fun segs hs => ?_⟩
  have h := (hsome segs hs).2
  constructor
  · rw [h]
  · rw [h]

/-- C5 witness input: cell `(0,0)` spools one two-vertex segment and one
single-vertex segment (the latter is skipped by the codec). -/
def spoolsOneSeg : ℕ × ℕ → Option (List (List (ℤ × ℤ))) :=
  fun c => if c = (0, 0) then some [[(0, 0), (1, 1)], [(5, 5)]] else none

/-- Witness for C5 (amended): the entry of cell `(0,0)` counts one packed
segment of two vertices. -/
theorem directory_completeness_witness :
    ((runCodec spoolsOneSeg).dir (0, 0)).numSegments = 1 ∧
      ((runCodec spoolsOneSeg).dir (0, 0)).numVertices = 2 := by
  have h := (directory_completeness spoolsOneSeg (0, 0)
      (mem_cellList 0 0 (by decide) (by decide))).2
      [[((0:ℤ), (0:ℤ)), (1, 1)], [(5, 5)]] rfl
  exact ⟨h.1.trans (by decide), h.2.trans (by decide)⟩

/-! ## Full-run lifecycle of a cell with an existing but empty spool
(claim C10) -/

/-- Cell corners in arc-seconds from the cell id `(latIdx, lonIdx)`
(lines 261–301, with the id as written into the spool file name). -/
def cellBoundsOf (c : ℕ × ℕ) : CellBounds :=
  ⟨(c.2 : ℚ) * 3600, ((c.2 : ℚ) + 1) * 3600,
    (c.1 : ℚ) * 3600, ((c.1 : ℚ) + 1) * 3600⟩

/-- The spool files after the accumulation pass: a cell whose input
shapefile exists gets a spool file — created by `fopen (fname, "ab")`
(line 307) before any shape is read, hence existing even when zero
segments are written into it — holding the accumulated segments as
micro-unit pairs; a cell with no input resource has no spool. -/
def spoolsOf (input : ℕ × ℕ → Option (List SHPShape)) :
    ℕ × ℕ → Option (List (List (ℤ × ℤ))) :=
  fun c => (input c).map (fun shapes =>
    (accumulateCell (cellBoundsOf c) shapes).map (fun s => s.map (fun v => (v.x, v.y))))

/-- Accumulation pass followed by the codec pass. -/
def fullRun (input : ℕ × ℕ → Option (List SHPShape)) : RunState :=
  runCodec (spoolsOf input)

/-- C10: for a cell whose input shapefile exists, the spool file exists
even when the accumulator writes zero segments to it; the codec pass then
opens this empty spool, backpatches the cell's directory entry with the
packed-region address (≥ `headerBytes`) and `segmentCount = 0`,
`vertexCount = 0`, and deletes the spool file. -/
theorem empty_spool_lifecycle (input : ℕ × ℕ → Option (List SHPShape))
    (c : ℕ × ℕ) (hc : c ∈ cellList) (shapes : List SHPShape)
    (hin : input c = some shapes)
    (hempty : accumulateCell (cellBoundsOf c) shapes = []) :
    (spoolsOf input c).isSome = true ∧
      headerBytes ≤ ((fullRun input).dir c).address ∧
      ((fullRun input).dir c).numSegments = 0 ∧
      ((fullRun input).dir c).numVertices = 0 ∧
      (fullRun input).spools c = none := by
  have hsp : spoolsOf input c = some [] := by
    simp [spoolsOf, hin, hempty]
  have hchar := runCodec_char (spoolsOf input) c hc
  have h2 := hchar.2.1 [] hsp
  have hfr : fullRun input = runCodec (spoolsOf input) := rfl
  rw [hfr]
  refine ⟨by simp [hsp], ?_, ?_, ?_, hchar.2.2⟩
  · exact h2.1
  · rw [h2.2]
    rfl
  · rw [h2.2]
    rfl

/-- C10 witness input: cell `(0,0)` has an input shapefile with zero
shapes; every other cell has none. -/
def inputEmptyShapes : ℕ × ℕ → Option (List SHPShape) :=
  fun c => if c = (0, 0) then some [] else none

/-- Witness for C10: the concrete run over `inputEmptyShapes`. -/
theorem empty_spool_lifecycle_witness :
    inputEmptyShapes (0, 0) = some [] ∧
      (spoolsOf inputEmptyShapes (0, 0)).isSome = true ∧
      ((fullRun inputEmptyShapes).dir (0, 0)).numSegments = 0 ∧
      ((fullRun inputEmptyShapes).dir (0, 0)).numVertices = 0 ∧
      (fullRun inputEmptyShapes).spools (0, 0) = none := by
  have h := empty_spool_lifecycle inputEmptyShapes (0, 0)
    (mem_cellList 0 0 (by decide) (by decide)) [] rfl rfl
  exact ⟨rfl, h.1, h.2.2.1, h.2.2.2.1, h.2.2.2.2⟩

end BuildSwbd
